import Mathlib

/-!
Verification of the identifier/keyword/reserved-word layer and the sink
protocol of the lexy parsing library, against `dsl/identifier.hpp` and
`lexy/callback.hpp`.

The embedding works over a concrete reader: a cursor into a character
sequence, restricted to a half-open window `[pos, stop)`.  A token engine
is a function from a reader to an error code (0 = success, following the
C++ convention that `error_code()` value-initializes to the success value)
together with the updated reader.  Primitive engines whose sources are not
part of this excerpt (`engine_while`, `engine_find`, `engine_any`,
`engine_peek`, `engine_try_match`, the literal engine, the token-engine
alternative, `partial_reader`) are modelled from the specification; the
identifier, keyword and sink code is translated from the sources.
-/

namespace Lexy

/-- Modelled from the spec: the cursor/input primitive (spec section 3) — an
immutable forward position over a character sequence, comparable and
advanceable by one; `stop` is the end of the (possibly restricted) window,
so `eof` holds when `pos` has reached `stop`. -/
structure Reader where
  input : List Char
  pos : Nat
  stop : Nat
deriving Repr, DecidableEq

/-- End-of-input test for a reader window. -/
def Reader.eof (r : Reader) : Bool := r.stop ≤ r.pos

/-- The character under the cursor, if any within the window. -/
def Reader.peek? (r : Reader) : Option Char :=
  if r.pos < r.stop then r.input.get? r.pos else none

/-- Advance the cursor by one. -/
def Reader.bump (r : Reader) : Reader := { r with pos := r.pos + 1 }

/-- A token engine: consumes characters from a reader and reports a compact
error code, 0 meaning success (C++ `error_code()` is the zero value). -/
def Engine := Reader → Nat × Reader

/-- Well-formedness of a token engine: it never rewrites the underlying
input or the window bound, only moves the cursor forward, and never moves
it past the window bound. -/
structure EngineWf (e : Engine) : Prop where
  input_eq : ∀ r, ((e r).2).input = r.input
  stop_eq : ∀ r, ((e r).2).stop = r.stop
  pos_mono : ∀ r, r.pos ≤ ((e r).2).pos
  pos_le_stop : ∀ r, r.pos ≤ r.stop → ((e r).2).pos ≤ r.stop

/-- Modelled from the spec: the unconditional `any` engine — it
unconditionally succeeds, consuming the entire remainder of the reader's
window (used by `reserve_prefix` and `_contains` to consume the whole rest
of the restricted identifier span). -/
def engine_any : Engine := fun r => (0, { r with pos := max r.pos r.stop })

/-- Modelled from the spec: `peek(E)` — non-consuming test whether engine
`E` would match at the current position (spec section 4.1). -/
def engine_peek (e : Engine) (r : Reader) : Bool := (e r).1 == 0

/-- Modelled from the spec: `try-match(E)` — consuming test with automatic
rollback on failure (spec section 4.1): on success the advanced reader is
kept, on failure the reader is restored unchanged. -/
def engine_try_match (e : Engine) (r : Reader) : Bool × Reader :=
  let res := e r
  if res.1 = 0 then (true, res.2) else (false, r)

/-- Fuel-indexed loop body of `engine_while`; the fuel only serves
termination and is chosen large enough to never bind. -/
def whileAux (e : Engine) : Nat → Reader → Reader
  | 0, r => r
  | n + 1, r =>
    if (e r).1 = 0 ∧ r.pos < ((e r).2).pos then whileAux e n ((e r).2) else r

/-- Modelled from the spec: `while(E)` — repeat `E` until it fails to
consume (spec section 4.1); a failing iteration is rolled back, so the
engine as a whole always succeeds. -/
def engine_while (e : Engine) (r : Reader) : Reader :=
  whileAux e (r.stop - r.pos + 1) r

/-- Fuel-indexed loop body of `engine_find`. -/
def findAux (e : Engine) : Nat → Reader → Nat × Reader
  | 0, r => (1, r)
  | n + 1, r =>
    if engine_peek e r then (0, r)
    else if r.eof then (1, r)
    else findAux e n r.bump

/-- Modelled from the spec: `find(E)` — scan forward, consuming, until `E`
would match, without consuming the match itself (spec section 4.1); fails
with a not-found code (1) upon reaching the end of the window. -/
def engine_find (e : Engine) : Engine := fun r =>
  findAux e (r.stop - r.pos + 1) r

/-- Character-by-character worker of the literal engine, tracking the index
into the string for the failure code. -/
def litAux : List Char → Nat → Reader → Nat × Reader
  | [], _, r => (0, r)
  | c :: cs, i, r =>
    if r.peek? = some c then litAux cs (i + 1) r.bump else (i + 1, r)

/-- Modelled from the spec: the literal token engine of `_lit<String>` —
match the string character by character, consuming as it matches; on a
mismatch at index `i` it stops with the matched prefix consumed and reports
a code identifying `i` (the documented `expected_literal` index), here
encoded as `i + 1` so that 0 remains the success value. -/
def engine_literal (s : List Char) : Engine := fun r => litAux s 0 r

/-- Modelled from the spec: a char-class token engine — match exactly one
character of the class (spec section 4.1). -/
def engine_char_class (p : Char → Bool) : Engine := fun r =>
  match r.peek? with
  | some c => if p c then (0, r.bump) else (1, r)
  | none => (1, r)

/-- Modelled from the spec: sequencing two token engines (`a + b`, spec
section 4.2 `sequence`) — match `a`, then `b` from where `a` stopped;
a failure of `a` is returned as is. -/
def engine_seq (a b : Engine) : Engine := fun r =>
  let res := a r
  if res.1 ≠ 0 then res else b res.2

/-- Modelled from the spec: the token-engine alternative `/` combining the
reserved set (spec section 4.3: each reserved rule is re-run against the
restricted cursor, and it counts as reserved only if it consumes the entire
restricted span).  Every alternative is therefore tried from the same
position and the longest successful match is kept, so that the
whole-span test observed by the caller succeeds exactly when some
alternative consumes the whole span. -/
def engine_alt : List Engine → Engine
  | [] => fun r => (1, r)
  | e :: es => fun r =>
    if (e r).1 = 0 then
      if (engine_alt es r).1 = 0 ∧ ((e r).2).pos < ((engine_alt es r).2).pos then
        (0, (engine_alt es r).2)
      else (0, (e r).2)
    else engine_alt es r

/-- Modelled from the spec: `lexy::partial_reader(reader, end)` — a reader
over the same input, starting at `reader`'s position but restricted exactly
to the window ending at `stop` (spec section 4.3: a restricted cursor
bounded exactly to the identifier span, not the live cursor). -/
def partial_reader (r : Reader) (stop : Nat) : Reader :=
  { input := r.input, pos := r.pos, stop := stop }

/-- Modelled from the spec: the diagnosable errors raised by this layer
(spec section 3 `Error`): `reserved_identifier` carries a range
`[b, e)`; `expected_keyword` carries a range plus the keyword's text
(`lexy/error.hpp` is not part of this excerpt). -/
inductive ParseError where
  | reserved_identifier (b e : Nat)
  | expected_keyword (b e : Nat) (str : List Char)
deriving Repr, DecidableEq

/-- A lexeme `[begin, end)`, as the pair of its two positions. -/
abbrev Lexeme := Nat × Nat

/-- Translated from `_idp<Leading, Trailing>::token_engine::match`
(`dsl/identifier.hpp`): match the leading engine once, propagating its
error code on failure, then run `engine_while` of the trailing engine and
succeed. -/
def idp_match (L T : Engine) : Engine := fun r =>
  let res := L r
  if res.1 ≠ 0 then res else (0, engine_while T res.2)

/-- Translated from `_idp<Leading, Trailing>::token_error`
(`dsl/identifier.hpp`): the identifier pattern delegates error reporting to
the leading engine's `token_error` with unchanged arguments. -/
def idp_token_error {C : Type} (leading_token_error : C → Reader → Nat → Nat → C)
    (ctx : C) (reader : Reader) (ec : Nat) (pos : Nat) : C :=
  leading_token_error ctx reader ec pos

/-- Translated from `_contains<R>::token_engine::match`
(`dsl/identifier.hpp`): try-match `engine_find` of the condition; on
failure report `not_found` (code 1) with the reader rolled back, otherwise
consume the whole rest of the window with `engine_any` and succeed. -/
def contains_match (cond : Engine) : Engine := fun r =>
  let tm := engine_try_match (engine_find cond) r
  if tm.1 then (0, (engine_any tm.2).2) else (1, r)

/-- The reserved-identifier condition of `_id::parser::_continuation::parse`
(`dsl/identifier.hpp`): try-match the combined reserved engine on a partial
reader restricted exactly to `[old.pos, stop)` and require that the
restricted reader ends exactly at `stop`. -/
def id_reserved_flag (res : Engine) (old : Reader) (stop : Nat) : Bool :=
  let id_reader := partial_reader old stop
  let tm := engine_try_match res id_reader
  tm.1 && (tm.2.pos == stop)

/-- Translated from `_id::parser::_continuation::parse`
(`dsl/identifier.hpp`): with `old` the reader saved before the identifier
pattern ran and `reader` the live reader after it, compute the span
`[begin, end)`; when a reserved set is present (`some res`, the engine of
the alternative of the reserved rules), re-run it on a partial reader
restricted to the span and report a `reserved_identifier` error when it
matches the entire span; in every case invoke the next parser with the
lexeme appended, returning its result.  The error context is the list of
reported errors, passed explicitly. -/
def id_continuation (res : Option Engine)
    (next : List ParseError → Reader → Lexeme → List ParseError × Bool)
    (ctx : List ParseError) (reader old : Reader) : List ParseError × Bool :=
  let b := old.pos
  let e := reader.pos
  match res with
  | none => next ctx reader (b, e)
  | some res =>
    let id_reader := partial_reader old e
    let tm := engine_try_match res id_reader
    if tm.1 && (tm.2.pos == e) then
      next (ctx ++ [ParseError.reserved_identifier b e]) reader (b, e)
    else
      next ctx reader (b, e)

/-- Translated from `_id::parser::parse` (`dsl/identifier.hpp`), with the
token-rule driver modelled from the spec (the generic token parser of
`dsl/token.hpp` is not part of this excerpt): save the reader, run the
identifier pattern's engine; on success hand over to the continuation at
the advanced reader; on failure report the token's error — for `_idp` the
leading engine's error, built by the abstract `lerr` from the failed
reader, the error code and the saved position — and abort (fatal). -/
def id_parse (L T : Engine) (res : Option Engine)
    (lerr : Reader → Nat → Nat → ParseError)
    (next : List ParseError → Reader → Lexeme → List ParseError × Bool)
    (ctx : List ParseError) (reader : Reader) : List ParseError × Bool :=
  let old := reader
  let m := idp_match L T reader
  if m.1 = 0 then
    id_continuation res next ctx m.2 old
  else
    (ctx ++ [lerr m.2 m.1 old.pos], false)

/-- Translated from `_kw<String, Id>::token_engine::match`
(`dsl/identifier.hpp`): match the literal string (mapping any failure to
the keyword engine's single `error` code 1, with the reader left where the
literal engine stopped); then peek the identifier's trailing engine — if it
would still match, the literal was merely a prefix of a longer identifier,
so fail; otherwise succeed. -/
def kw_match (str : List Char) (T : Engine) : Engine := fun r =>
  let res := engine_literal str r
  if res.1 ≠ 0 then (1, res.2)
  else if engine_peek T res.2 then (1, res.2)
  else (0, res.2)

/-- Translated from `_kw<String, Id>::token_error` (`dsl/identifier.hpp`):
`pos` is where the keyword match started and `reader` is the reader after
the failed engine run; when no character was consumed (`pos = reader.pos`)
the identifier span is found by try-matching the full identifier pattern,
otherwise by consuming trailing characters only; the reported error is
`expected_keyword` over `[pos, end)` carrying the keyword's text. -/
def kw_token_error (str : List Char) (L T : Engine)
    (reader : Reader) (pos : Nat) : ParseError :=
  let b := pos
  let e :=
    if b = reader.pos then
      (engine_try_match (idp_match L T) reader).2.pos
    else
      (engine_while T reader).pos
  ParseError.expected_keyword b e str

/-- Translated from `_id::reserve_prefix` (`dsl/identifier.hpp`): reserving
the prefixes `ps` is reserving the rules `p + any`, i.e. the alternative of
the engines sequencing each prefix engine with `engine_any`. -/
def reserve_prefix_engine (ps : List Engine) : Engine :=
  engine_alt (ps.map fun p => engine_seq p engine_any)

/-- Translated from `_id::reserve_containing` (`dsl/identifier.hpp`):
reserving identifiers containing the rules `rs` is reserving the
`_contains` engines of those rules. -/
def reserve_containing_engine (rs : List Engine) : Engine :=
  engine_alt (rs.map contains_match)

/-- A concrete leading char class for examples: one alphabetic character. -/
def alphaEngine : Engine := engine_char_class fun c => c.isAlpha

/-- A concrete trailing char class for examples: one alphanumeric
character (so that in `ifx` the `x` is a valid trailing identifier
character, while a space or `+` is not). -/
def alnumEngine : Engine := engine_char_class fun c => c.isAlphanum

/-- A reader over a whole string, cursor at the start. -/
def mkReader (s : String) : Reader :=
  { input := s.toList, pos := 0, stop := s.length }

end Lexy

namespace lexy

/-- Translated from `lexy::_sink<T, Callback>` (`lexy/callback.hpp`): the
accumulator `_value` of type `T` together with the internal callback; each
invocation passes the accumulated value and the argument to the callback
(the C++ callback mutates the accumulator through its reference first
parameter; here it returns the updated accumulator).  C++ overload
resolution over the supplied functions is modelled by a single combined
function on the argument type. -/
structure _sink (T A : Type) where
  _value : T
  _cb : T → A → T

/-- Translated from `lexy::_sink::operator()` (`lexy/callback.hpp`): feed
one argument, i.e. call the internal callback on the accumulator and the
argument. -/
def _sink.run {T A : Type} (s : _sink T A) (a : A) : _sink T A :=
  { s with _value := s._cb s._value a }

/-- Translated from `lexy::_sink::finish` (`lexy/callback.hpp`): return the
accumulated value. -/
def _sink.finish {T A : Type} (s : _sink T A) : T := s._value

/-- Feed a sink a whole list of arguments, one invocation each, in order. -/
def _sink.feedAll {T A : Type} (s : _sink T A) (l : List A) : _sink T A :=
  l.foldl _sink.run s

/-- Translated from `lexy::_sink_callback<T, Fns...>` (`lexy/callback.hpp`):
the object returned by `lexy::sink`, holding the combined callback. -/
structure _sink_callback (T A : Type) where
  _cb : T → A → T

/-- Translated from `lexy::_sink_callback::sink` (`lexy/callback.hpp`):
create the sink, value-initializing the accumulator (`_value()` in the
constructor of `_sink`; value-initialization is the type's default value). -/
def _sink_callback.sink {T A : Type} [Inhabited T] (sc : _sink_callback T A) :
    _sink T A :=
  { _value := default, _cb := sc._cb }

/-- Translated from `lexy::sink<T>(fns...)` (`lexy/callback.hpp`): build
the sink callback from the supplied functions (combined by overload
resolution into one function on the argument type). -/
def sink {A : Type} (T : Type) (f : T → A → T) : _sink_callback T A :=
  { _cb := f }

end lexy


/-!
Helper lemmas about the primitive engines, followed by the claim theorems.
-/

namespace Lexy

theorem engine_peek_eq_true {e : Engine} {r : Reader} :
    engine_peek e r = true ↔ (e r).1 = 0 := by
  simp [engine_peek]

theorem engine_try_match_of_success {e : Engine} {r : Reader} (h : (e r).1 = 0) :
    engine_try_match e r = (true, (e r).2) := by
  simp [engine_try_match, h]

theorem engine_try_match_of_failure {e : Engine} {r : Reader} (h : (e r).1 ≠ 0) :
    engine_try_match e r = (false, r) := by
  simp [engine_try_match, h]

theorem engine_try_match_pos_mono {e : Engine} (hmono : ∀ r, r.pos ≤ ((e r).2).pos)
    (r : Reader) : r.pos ≤ ((engine_try_match e r).2).pos := by
  by_cases h : (e r).1 = 0
  · rw [engine_try_match_of_success h]; exact hmono r
  · rw [engine_try_match_of_failure h]

theorem whileAux_pos_mono (e : Engine) : ∀ (n : Nat) (r : Reader), r.pos ≤ (whileAux e n r).pos
  | 0, _ => Nat.le_refl _
  | n + 1, r => by
    simp only [whileAux]
    split
    · next h => exact Nat.le_trans (Nat.le_of_lt h.2) (whileAux_pos_mono e n _)
    · exact Nat.le_refl _

theorem engine_while_pos_mono (e : Engine) (r : Reader) : r.pos ≤ (engine_while e r).pos :=
  whileAux_pos_mono e _ r

theorem whileAux_fuel_irrel (e : Engine) (he : EngineWf e) :
    ∀ (n m : Nat) (r : Reader), r.pos ≤ r.stop → r.stop - r.pos < n → r.stop - r.pos < m →
      whileAux e n r = whileAux e m r := by
  intro n
  induction n with
  | zero => intro m r _ hn _; omega
  | succ n ih =>
    intro m r hle hn hm
    match m, hm with
    | m + 1, hm =>
      simp only [whileAux]
      by_cases hc : (e r).1 = 0 ∧ r.pos < ((e r).2).pos
      · rw [if_pos hc, if_pos hc]
        obtain ⟨hc1, hc2⟩ := hc
        have hstop : ((e r).2).stop = r.stop := he.stop_eq r
        have hps : ((e r).2).pos ≤ r.stop := he.pos_le_stop r hle
        have h1 : ((e r).2).pos ≤ ((e r).2).stop := by rw [hstop]; exact hps
        have h2 : ((e r).2).stop - ((e r).2).pos < n := by rw [hstop]; omega
        have h3 : ((e r).2).stop - ((e r).2).pos < m := by rw [hstop]; omega
        exact ih m ((e r).2) h1 h2 h3
      · rw [if_neg hc, if_neg hc]

theorem engine_while_unfold (e : Engine) (he : EngineWf e) (r : Reader) (hle : r.pos ≤ r.stop) :
    engine_while e r =
      if (e r).1 = 0 ∧ r.pos < ((e r).2).pos then engine_while e ((e r).2) else r := by
  by_cases hc : (e r).1 = 0 ∧ r.pos < ((e r).2).pos
  · rw [if_pos hc]
    obtain ⟨hc1, hc2⟩ := hc
    have hstop : ((e r).2).stop = r.stop := he.stop_eq r
    have hps : ((e r).2).pos ≤ r.stop := he.pos_le_stop r hle
    have hstep : whileAux e (r.stop - r.pos + 1) r = whileAux e (r.stop - r.pos) ((e r).2) := by
      simp only [whileAux]
      rw [if_pos ⟨hc1, hc2⟩]
    show whileAux e (r.stop - r.pos + 1) r
        = whileAux e (((e r).2).stop - ((e r).2).pos + 1) ((e r).2)
    rw [hstep]
    apply whileAux_fuel_irrel e he
    · rw [hstop]; exact hps
    · rw [hstop]; omega
    · exact Nat.lt_succ_self _
  · rw [if_neg hc]
    show whileAux e (r.stop - r.pos + 1) r = r
    simp only [whileAux]
    rw [if_neg hc]

theorem engine_any_wf : EngineWf engine_any :=
  ⟨fun _ => rfl, fun _ => rfl, fun r => Nat.le_max_left _ _,
   fun r h => Nat.max_le.mpr ⟨h, Nat.le_refl _⟩⟩

theorem engine_char_class_cases (p : Char → Bool) (r : Reader) :
    (engine_char_class p r = (0, r.bump) ∧ r.pos < r.stop) ∨ engine_char_class p r = (1, r) := by
  unfold engine_char_class
  cases hp : r.peek? with
  | none => exact Or.inr rfl
  | some c =>
    have hlt : r.pos < r.stop := by
      unfold Reader.peek? at hp
      by_cases hlt : r.pos < r.stop
      · exact hlt
      · simp [hlt] at hp
    by_cases hpc : p c
    · exact Or.inl ⟨by simp [hpc], hlt⟩
    · exact Or.inr (by simp [hpc])

theorem engine_char_class_wf (p : Char → Bool) : EngineWf (engine_char_class p) := by
  constructor
  · intro r; rcases engine_char_class_cases p r with ⟨h, _⟩ | h <;> rw [h] <;> rfl
  · intro r; rcases engine_char_class_cases p r with ⟨h, _⟩ | h <;> rw [h] <;> rfl
  · intro r
    rcases engine_char_class_cases p r with ⟨h, _⟩ | h
    · rw [h]; exact Nat.le_succ _
    · rw [h]
  · intro r hle
    rcases engine_char_class_cases p r with ⟨h, hlt⟩ | h
    · rw [h]; exact hlt
    · rw [h]; exact hle

theorem litAux_wf (s : List Char) : ∀ (i : Nat) (r : Reader),
    ((litAux s i r).2.input = r.input) ∧ ((litAux s i r).2.stop = r.stop) ∧
      (r.pos ≤ (litAux s i r).2.pos) ∧ (r.pos ≤ r.stop → (litAux s i r).2.pos ≤ r.stop) := by
  induction s with
  | nil => intro i r; exact ⟨rfl, rfl, Nat.le_refl _, fun h => h⟩
  | cons c cs ih =>
    intro i r
    unfold litAux
    by_cases hp : r.peek? = some c
    · rw [if_pos hp]
      have hlt : r.pos < r.stop := by
        unfold Reader.peek? at hp
        by_cases hlt : r.pos < r.stop
        · exact hlt
        · simp [hlt] at hp
      obtain ⟨h1, h2, h3, h4⟩ := ih (i + 1) r.bump
      exact ⟨h1, h2, Nat.le_trans (Nat.le_succ _) h3, fun _ => h4 hlt⟩
    · rw [if_neg hp]
      exact ⟨rfl, rfl, Nat.le_refl _, fun h => h⟩

theorem engine_literal_wf (s : List Char) : EngineWf (engine_literal s) :=
  ⟨fun r => (litAux_wf s 0 r).1, fun r => (litAux_wf s 0 r).2.1,
   fun r => (litAux_wf s 0 r).2.2.1, fun r h => (litAux_wf s 0 r).2.2.2 h⟩

theorem engine_seq_cases (a b : Engine) (r : Reader) :
    (engine_seq a b r = a r ∧ (a r).1 ≠ 0) ∨
      (engine_seq a b r = b ((a r).2) ∧ (a r).1 = 0) := by
  unfold engine_seq
  by_cases h : (a r).1 = 0
  · exact Or.inr ⟨by rw [if_neg (not_not_intro h)], h⟩
  · exact Or.inl ⟨by rw [if_pos h], h⟩

theorem engine_seq_wf {a b : Engine} (ha : EngineWf a) (hb : EngineWf b) :
    EngineWf (engine_seq a b) := by
  constructor
  · intro r
    rcases engine_seq_cases a b r with ⟨h, _⟩ | ⟨h, _⟩ <;> rw [h]
    · exact ha.input_eq r
    · rw [hb.input_eq, ha.input_eq]
  · intro r
    rcases engine_seq_cases a b r with ⟨h, _⟩ | ⟨h, _⟩ <;> rw [h]
    · exact ha.stop_eq r
    · rw [hb.stop_eq, ha.stop_eq]
  · intro r
    rcases engine_seq_cases a b r with ⟨h, _⟩ | ⟨h, _⟩ <;> rw [h]
    · exact ha.pos_mono r
    · exact Nat.le_trans (ha.pos_mono r) (hb.pos_mono ((a r).2))
  · intro r hle
    rcases engine_seq_cases a b r with ⟨h, _⟩ | ⟨h, _⟩ <;> rw [h]
    · exact ha.pos_le_stop r hle
    · have h1 : ((a r).2).pos ≤ ((a r).2).stop := by
        rw [ha.stop_eq]; exact ha.pos_le_stop r hle
      have h2 := hb.pos_le_stop ((a r).2) h1
      rw [ha.stop_eq r] at h2
      exact h2

theorem engine_alt_success_iff : ∀ (es : List Engine) (r : Reader),
    (engine_alt es r).1 = 0 ↔ ∃ en ∈ es, (en r).1 = 0 := by
  intro es
  induction es with
  | nil => intro r; simp [engine_alt]
  | cons e es ih =>
    intro r
    simp only [engine_alt]
    by_cases h1 : (e r).1 = 0
    · rw [if_pos h1]
      by_cases h2 : (engine_alt es r).1 = 0 ∧ ((e r).2).pos < ((engine_alt es r).2).pos
      · rw [if_pos h2]
        constructor
        · intro _; exact ⟨e, List.mem_cons_self e es, h1⟩
        · intro _; rfl
      · rw [if_neg h2]
        constructor
        · intro _; exact ⟨e, List.mem_cons_self e es, h1⟩
        · intro _; rfl
    · rw [if_neg h1]
      rw [ih r]
      constructor
      · rintro ⟨en, hm, hs⟩; exact ⟨en, List.mem_cons_of_mem e hm, hs⟩
      · rintro ⟨en, hm, hs⟩
        rcases List.mem_cons.mp hm with rfl | hm
        · exact absurd hs h1
        · exact ⟨en, hm, hs⟩

theorem engine_alt_result_mem : ∀ (es : List Engine) (r : Reader),
    (engine_alt es r).1 = 0 →
      ∃ en ∈ es, (en r).1 = 0 ∧ (engine_alt es r).2 = (en r).2 := by
  intro es
  induction es with
  | nil => intro r h; simp [engine_alt] at h
  | cons e es ih =>
    intro r h
    simp only [engine_alt] at h ⊢
    by_cases h1 : (e r).1 = 0
    · rw [if_pos h1] at h ⊢
      by_cases h2 : (engine_alt es r).1 = 0 ∧ ((e r).2).pos < ((engine_alt es r).2).pos
      · rw [if_pos h2] at h ⊢
        obtain ⟨en, hm, hs, heq⟩ := ih r h2.1
        exact ⟨en, List.mem_cons_of_mem e hm, hs, heq⟩
      · rw [if_neg h2] at h ⊢
        exact ⟨e, List.mem_cons_self e es, h1, rfl⟩
    · rw [if_neg h1] at h ⊢
      obtain ⟨en, hm, hs, heq⟩ := ih r h
      exact ⟨en, List.mem_cons_of_mem e hm, hs, heq⟩

theorem engine_alt_pos_ge : ∀ (es : List Engine) (r : Reader), ∀ en ∈ es, (en r).1 = 0 →
    ((en r).2).pos ≤ ((engine_alt es r).2).pos := by
  intro es
  induction es with
  | nil => intro r en hm; simp at hm
  | cons e es ih =>
    intro r en hm hs
    rcases List.mem_cons.mp hm with rfl | hm
    · simp only [engine_alt]
      rw [if_pos hs]
      by_cases h2 : (engine_alt es r).1 = 0 ∧ ((en r).2).pos < ((engine_alt es r).2).pos
      · rw [if_pos h2]; exact Nat.le_of_lt h2.2
      · rw [if_neg h2]
    · have hsucc : (engine_alt es r).1 = 0 := (engine_alt_success_iff es r).mpr ⟨en, hm, hs⟩
      have hle := ih r en hm hs
      simp only [engine_alt]
      by_cases h1 : (e r).1 = 0
      · rw [if_pos h1]
        by_cases h2 : (engine_alt es r).1 = 0 ∧ ((e r).2).pos < ((engine_alt es r).2).pos
        · rw [if_pos h2]; exact hle
        · rw [if_neg h2]
          have hnlt : ¬ ((e r).2).pos < ((engine_alt es r).2).pos := fun hlt => h2 ⟨hsucc, hlt⟩
          exact Nat.le_trans hle (Nat.le_of_not_lt hnlt)
      · rw [if_neg h1]
        exact hle

theorem id_reserved_flag_iff (res : Engine) (old : Reader) (E : Nat) :
    id_reserved_flag res old E = true ↔
      ((res (partial_reader old E)).1 = 0 ∧ ((res (partial_reader old E)).2).pos = E) := by
  show ((engine_try_match res (partial_reader old E)).1 &&
      ((engine_try_match res (partial_reader old E)).2.pos == E)) = true ↔ _
  by_cases h : (res (partial_reader old E)).1 = 0
  · rw [engine_try_match_of_success h]
    simp [h]
  · rw [engine_try_match_of_failure h]
    simp [h]

theorem id_continuation_some (res : Engine)
    (next : List ParseError → Reader → Lexeme → List ParseError × Bool)
    (ctx : List ParseError) (reader old : Reader) :
    id_continuation (some res) next ctx reader old =
      next (if id_reserved_flag res old reader.pos
            then ctx ++ [ParseError.reserved_identifier old.pos reader.pos]
            else ctx) reader (old.pos, reader.pos) := by
  show (if id_reserved_flag res old reader.pos = true
        then next (ctx ++ [ParseError.reserved_identifier old.pos reader.pos]) reader
          (old.pos, reader.pos)
        else next ctx reader (old.pos, reader.pos)) = _
  by_cases h : id_reserved_flag res old reader.pos = true
  · rw [if_pos h, if_pos h]
  · rw [if_neg h, if_neg h]

theorem id_continuation_none
    (next : List ParseError → Reader → Lexeme → List ParseError × Bool)
    (ctx : List ParseError) (reader old : Reader) :
    id_continuation none next ctx reader old = next ctx reader (old.pos, reader.pos) := rfl

theorem id_reserved_flag_alt_iff (es : List Engine) (old : Reader) (E : Nat)
    (hstop : ∀ en ∈ es, ((en (partial_reader old E)).2).pos ≤ E) :
    id_reserved_flag (engine_alt es) old E = true ↔
      ∃ en ∈ es, (en (partial_reader old E)).1 = 0 ∧
        ((en (partial_reader old E)).2).pos = E := by
  rw [id_reserved_flag_iff]
  constructor
  · rintro ⟨hsucc, hpos⟩
    obtain ⟨en, hm, hs, heq⟩ := engine_alt_result_mem es (partial_reader old E) hsucc
    exact ⟨en, hm, hs, by rw [← heq]; exact hpos⟩
  · rintro ⟨en, hm, hs, hpos⟩
    have hsucc : (engine_alt es (partial_reader old E)).1 = 0 :=
      (engine_alt_success_iff es _).mpr ⟨en, hm, hs⟩
    refine ⟨hsucc, ?_⟩
    have hge : E ≤ ((engine_alt es (partial_reader old E)).2).pos := by
      have h := engine_alt_pos_ge es (partial_reader old E) en hm hs
      rw [hpos] at h
      exact h
    have hle2 : ((engine_alt es (partial_reader old E)).2).pos ≤ E := by
      obtain ⟨en2, hm2, hs2, heq2⟩ := engine_alt_result_mem es _ hsucc
      rw [heq2]; exact hstop en2 hm2
    exact Nat.le_antisymm hle2 hge

theorem idp_match_eq (L T : Engine) (r : Reader) :
    idp_match L T r = if (L r).1 = 0 then (0, engine_while T ((L r).2)) else L r := by
  show (if (L r).1 ≠ 0 then L r else (0, engine_while T ((L r).2))) = _
  by_cases h : (L r).1 = 0
  · rw [if_neg (not_not_intro h), if_pos h]
  · rw [if_pos h, if_neg h]

theorem idp_pos_mono {L : Engine} (hL : ∀ r, r.pos ≤ ((L r).2).pos) (T : Engine) (r : Reader) :
    r.pos ≤ ((idp_match L T r).2).pos := by
  rw [idp_match_eq]
  by_cases h : (L r).1 = 0
  · rw [if_pos h]
    exact Nat.le_trans (hL r) (engine_while_pos_mono T _)
  · rw [if_neg h]; exact hL r

theorem findAux_spec (e : Engine) :
    ∀ (n : Nat) (r : Reader), r.pos ≤ r.stop → r.stop - r.pos < n →
      (((findAux e n r).1 = 0) ↔
        ∃ q, r.pos ≤ q ∧ q ≤ r.stop ∧ (e { r with pos := q }).1 = 0)
      ∧ ((findAux e n r).1 = 0 →
          ∃ q, r.pos ≤ q ∧ q ≤ r.stop ∧ findAux e n r = (0, { r with pos := q })) := by
  intro n
  induction n with
  | zero => intro r _ hn; omega
  | succ n ih =>
    intro r hle hn
    simp only [findAux]
    by_cases hp : engine_peek e r = true
    · rw [if_pos hp]
      have hq3 : (e { r with pos := r.pos }).1 = 0 := engine_peek_eq_true.mp hp
      exact ⟨⟨fun _ => ⟨r.pos, Nat.le_refl _, hle, hq3⟩, fun _ => rfl⟩,
             fun _ => ⟨r.pos, Nat.le_refl _, hle, rfl⟩⟩
    · rw [if_neg hp]
      by_cases he : r.eof = true
      · rw [if_pos he]
        have hps : r.stop ≤ r.pos := by
          unfold Reader.eof at he
          exact of_decide_eq_true he
        constructor
        · constructor
          · intro h; simp at h
          · rintro ⟨q, hq1, hq2, hq3⟩
            have hq : q = r.pos := by omega
            subst hq
            exact absurd (engine_peek_eq_true.mpr hq3) hp
        · intro h; simp at h
      · rw [if_neg he]
        have hlt : r.pos < r.stop := by
          unfold Reader.eof at he
          have := of_decide_eq_false (Bool.not_eq_true _ ▸ he)
          omega
        have hle2 : r.bump.pos ≤ r.bump.stop := hlt
        have hn2 : r.bump.stop - r.bump.pos < n := by
          show r.stop - (r.pos + 1) < n
          omega
        obtain ⟨ih1, ih2⟩ := ih r.bump hle2 hn2
        constructor
        · rw [ih1]
          constructor
          · rintro ⟨q, hq1, hq2, hq3⟩
            exact ⟨q, Nat.le_trans (Nat.le_succ _) hq1, hq2, hq3⟩
          · rintro ⟨q, hq1, hq2, hq3⟩
            by_cases hq : q = r.pos
            · subst hq
              exact absurd (engine_peek_eq_true.mpr hq3) hp
            · exact ⟨q, by show r.pos + 1 ≤ q; omega, hq2, hq3⟩
        · intro h
          obtain ⟨q, hq1, hq2, hq3⟩ := ih2 h
          exact ⟨q, Nat.le_trans (Nat.le_succ _) hq1, hq2, hq3⟩

theorem engine_find_spec (e : Engine) (r : Reader) (hle : r.pos ≤ r.stop) :
    (((engine_find e r).1 = 0) ↔
      ∃ q, r.pos ≤ q ∧ q ≤ r.stop ∧ (e { r with pos := q }).1 = 0)
    ∧ ((engine_find e r).1 = 0 →
        ∃ q, r.pos ≤ q ∧ q ≤ r.stop ∧ engine_find e r = (0, { r with pos := q })) :=
  findAux_spec e (r.stop - r.pos + 1) r hle (Nat.lt_succ_self _)

theorem contains_match_spec (cond : Engine) (r : Reader) (hle : r.pos ≤ r.stop) :
    (((contains_match cond r).1 = 0) ↔
       ∃ q, r.pos ≤ q ∧ q ≤ r.stop ∧ (cond { r with pos := q }).1 = 0)
    ∧ ((contains_match cond r).1 = 0 → contains_match cond r = (0, { r with pos := r.stop }))
    ∧ ((contains_match cond r).1 ≠ 0 → contains_match cond r = (1, r)) := by
  obtain ⟨hf1, hf2⟩ := engine_find_spec cond r hle
  by_cases h : (engine_find cond r).1 = 0
  · have htm := engine_try_match_of_success h
    have hcm : contains_match cond r = (0, (engine_any ((engine_find cond r).2)).2) := by
      simp only [contains_match]
      rw [htm]
      simp
    obtain ⟨q, hq1, hq2, hfeq⟩ := hf2 h
    have hpos : (engine_any ((engine_find cond r).2)).2 = { r with pos := r.stop } := by
      rw [hfeq]
      show ({ r with pos := max q r.stop } : Reader) = { r with pos := r.stop }
      rw [max_eq_right hq2]
    refine ⟨?_, fun _ => by rw [hcm, hpos], fun hne => absurd (by rw [hcm]) hne⟩
    rw [hcm]
    exact ⟨fun _ => hf1.mp h, fun _ => rfl⟩
  · have htm := engine_try_match_of_failure h
    have hcm : contains_match cond r = (1, r) := by
      simp only [contains_match]
      rw [htm]
      simp
    refine ⟨?_, fun h0 => by rw [hcm] at h0; simp at h0, fun _ => hcm⟩
    rw [hcm]
    constructor
    · intro h0; simp at h0
    · intro hex; exact absurd (hf1.mpr hex) h

theorem engine_seq_any_success (p : Engine) (r : Reader) :
    (engine_seq p engine_any r).1 = 0 ↔ (p r).1 = 0 := by
  rcases engine_seq_cases p engine_any r with ⟨h, _⟩ | ⟨h, hs⟩
  · rw [h]
  · rw [h]
    simp [engine_any, hs]

theorem engine_seq_any_pos {p : Engine} (hp : EngineWf p) (r : Reader)
    (hle : r.pos ≤ r.stop) (h : (p r).1 = 0) :
    ((engine_seq p engine_any r).2).pos = r.stop := by
  rcases engine_seq_cases p engine_any r with ⟨heq, hf⟩ | ⟨heq, _⟩
  · exact absurd h hf
  · rw [heq]
    show max ((p r).2).pos ((p r).2).stop = r.stop
    rw [hp.stop_eq]
    exact max_eq_right (hp.pos_le_stop r hle)

theorem sink_feedAll_finish {T A : Type} (f : T → A → T) :
    ∀ (l : List A) (v : T), ((⟨v, f⟩ : lexy._sink T A).feedAll l).finish = l.foldl f v := by
  intro l
  induction l with
  | nil => intro v; rfl
  | cons a l ih =>
    intro v
    show ((⟨f v a, f⟩ : lexy._sink T A).feedAll l).finish = l.foldl f (f v a)
    exact ih (f v a)

/-!
The claim theorems.
-/

/-- Claim C1: for an identifier rule with a non-empty reserved set and an
input where the identifier pattern matched the span from `old.pos` to
`reader.pos`, the identifier is reported reserved if and only if some
reserved rule, re-run on a reader restricted exactly to that span, succeeds
with the restricted reader having consumed the entire span (its position
equals the span's end); a reserved rule matching only a strict prefix
triggers no error. -/
theorem claim_C1_reserved_full_span (es : List Engine)
    (next : List ParseError → Reader → Lexeme → List ParseError × Bool)
    (ctx : List ParseError) (reader old : Reader)
    (hwf : ∀ en ∈ es, EngineWf en) (hle : old.pos ≤ reader.pos) :
    (id_reserved_flag (engine_alt es) old reader.pos = true ↔
      ∃ en ∈ es, (en (partial_reader old reader.pos)).1 = 0 ∧
        ((en (partial_reader old reader.pos)).2).pos = reader.pos)
    ∧ id_continuation (some (engine_alt es)) next ctx reader old =
        next (if id_reserved_flag (engine_alt es) old reader.pos
              then ctx ++ [ParseError.reserved_identifier old.pos reader.pos]
              else ctx) reader (old.pos, reader.pos) := by
  refine ⟨?_, id_continuation_some _ _ _ _ _⟩
  apply id_reserved_flag_alt_iff
  intro en hm
  exact (hwf en hm).pos_le_stop (partial_reader old reader.pos) hle

theorem claim_C1_witness :
    EngineWf (engine_literal ("if".toList)) ∧
    (mkReader "if ").pos ≤ (Reader.mk ("if ".toList) 2 3).pos ∧
    id_reserved_flag (engine_alt [engine_literal ("if".toList)]) (mkReader "if ")
      (Reader.mk ("if ".toList) 2 3).pos = true := by
  refine ⟨engine_literal_wf _, by decide, ?_⟩
  refine (claim_C1_reserved_full_span [engine_literal ("if".toList)]
      (fun ctx _ _ => (ctx, true)) [] (Reader.mk ("if ".toList) 2 3) (mkReader "if ")
      ?_ (by decide)).1.mpr ?_
  · intro en hm
    rw [List.mem_singleton] at hm
    subst hm
    exact engine_literal_wf _
  · exact ⟨engine_literal ("if".toList), List.mem_singleton_self _, by decide, by decide⟩

/-- Claim C2: the keyword engine succeeds if and only if the literal string
matches at the position and the identifier's trailing engine does not match
(by a non-consuming peek) immediately after the literal; in particular
keyword `if` fails (with the code reported as `expected_keyword`) on input
`ifx` and succeeds on `if ` and `if+`. -/
theorem claim_C2_keyword_engine (str : List Char) (T : Engine) (r : Reader) :
    ((kw_match str T r).1 = 0 ↔
      ((engine_literal str r).1 = 0 ∧ engine_peek T ((engine_literal str r).2) = false))
    ∧ (kw_match ("if".toList) alnumEngine (mkReader "ifx")).1 = 1
    ∧ (kw_match ("if".toList) alnumEngine (mkReader "if ")).1 = 0
    ∧ (kw_match ("if".toList) alnumEngine (mkReader "if+")).1 = 0 := by
  refine ⟨?_, by decide, by decide, by decide⟩
  by_cases h1 : (engine_literal str r).1 = 0
  · by_cases h2 : engine_peek T ((engine_literal str r).2) = true
    · have hk : kw_match str T r = (1, (engine_literal str r).2) := by
        simp only [kw_match]
        rw [if_neg (not_not_intro h1), if_pos h2]
      rw [hk]
      simp [h2]
    · have hk : kw_match str T r = (0, (engine_literal str r).2) := by
        simp only [kw_match]
        rw [if_neg (not_not_intro h1), if_neg h2]
      rw [hk]
      simp [h1, Bool.eq_false_iff.mpr h2]
  · have hk : kw_match str T r = (1, (engine_literal str r).2) := by
      simp only [kw_match]
      rw [if_pos h1]
    rw [hk]
    simp [h1]

/-- Claim C3: when the reserved check finds a reserved match, exactly one
error tagged `reserved_identifier` anchored at the span `[begin, end)` is
reported, and the continuation is still invoked with the lexeme
`[begin, end)` appended to the previous arguments; the parse function's
return value is exactly the continuation's return value, so the run
recovers rather than aborting. -/
theorem claim_C3_reserved_recovery (res : Engine)
    (next : List ParseError → Reader → Lexeme → List ParseError × Bool)
    (ctx : List ParseError) (reader old : Reader)
    (h : id_reserved_flag res old reader.pos = true) :
    id_continuation (some res) next ctx reader old =
      next (ctx ++ [ParseError.reserved_identifier old.pos reader.pos]) reader
        (old.pos, reader.pos) := by
  rw [id_continuation_some, if_pos h]

theorem claim_C3_witness :
    id_reserved_flag (engine_literal ("if".toList)) (mkReader "if ")
      (Reader.mk ("if ".toList) 2 3).pos = true ∧
    id_continuation (some (engine_literal ("if".toList))) (fun ctx _ _ => (ctx, true)) []
        (Reader.mk ("if ".toList) 2 3) (mkReader "if ")
      = (fun ctx _ _ => (ctx, true))
          ([] ++ [ParseError.reserved_identifier (mkReader "if ").pos
            (Reader.mk ("if ".toList) 2 3).pos])
          (Reader.mk ("if ".toList) 2 3)
          ((mkReader "if ").pos, (Reader.mk ("if ".toList) 2 3).pos) := by
  refine ⟨by decide, ?_⟩
  exact claim_C3_reserved_recovery (engine_literal ("if".toList)) (fun ctx _ _ => (ctx, true))
    [] (Reader.mk ("if ".toList) 2 3) (mkReader "if ") (by decide)

/-- Claim C4: the identifier pattern engine matches the leading engine
exactly once and then repeats the trailing engine until it fails to
consume, succeeding in that case; the span from the reader position before
the match to the position after it is exactly the lexeme passed to the
continuation as the identifier's value. -/
theorem claim_C4_identifier_pattern (L T : Engine) (r : Reader) (res : Option Engine)
    (lerr : Reader → Nat → Nat → ParseError)
    (next : List ParseError → Reader → Lexeme → List ParseError × Bool)
    (ctx : List ParseError)
    (hL : (L r).1 = 0) (hT : EngineWf T) (hr : ((L r).2).pos ≤ ((L r).2).stop) :
    idp_match L T r = (0, engine_while T ((L r).2))
    ∧ engine_while T ((L r).2) =
        (if (T ((L r).2)).1 = 0 ∧ ((L r).2).pos < ((T ((L r).2)).2).pos
         then engine_while T ((T ((L r).2)).2) else (L r).2)
    ∧ id_parse L T res lerr next ctx r
        = id_continuation res next ctx (engine_while T ((L r).2)) r
    ∧ id_parse L T none lerr next ctx r
        = next ctx (engine_while T ((L r).2)) (r.pos, (engine_while T ((L r).2)).pos) := by
  have h1 : idp_match L T r = (0, engine_while T ((L r).2)) := by
    rw [idp_match_eq, if_pos hL]
  have h3 : ∀ rsv, id_parse L T rsv lerr next ctx r
      = id_continuation rsv next ctx (engine_while T ((L r).2)) r := by
    intro rsv
    show (if (idp_match L T r).1 = 0
          then id_continuation rsv next ctx ((idp_match L T r).2) r
          else (ctx ++ [lerr ((idp_match L T r).2) ((idp_match L T r).1) r.pos], false)) = _
    rw [h1]
    simp
  refine ⟨h1, engine_while_unfold T hT ((L r).2) hr, h3 res, ?_⟩
  rw [h3 none, id_continuation_none]

theorem claim_C4_witness :
    (alphaEngine (mkReader "foo bar")).1 = 0 ∧
    EngineWf alnumEngine ∧
    ((alphaEngine (mkReader "foo bar")).2).pos ≤ ((alphaEngine (mkReader "foo bar")).2).stop ∧
    id_parse alphaEngine alnumEngine none (fun _ _ _ => ParseError.reserved_identifier 0 0)
        (fun ctx _ _ => (ctx, true)) [] (mkReader "foo bar")
      = (fun ctx _ _ => (ctx, true)) []
          (engine_while alnumEngine ((alphaEngine (mkReader "foo bar")).2))
          ((mkReader "foo bar").pos,
            (engine_while alnumEngine ((alphaEngine (mkReader "foo bar")).2)).pos) := by
  refine ⟨by decide, engine_char_class_wf _, by decide, ?_⟩
  exact (claim_C4_identifier_pattern alphaEngine alnumEngine (mkReader "foo bar") none
      (fun _ _ _ => ParseError.reserved_identifier 0 0) (fun ctx _ _ => (ctx, true)) []
      (by decide) (engine_char_class_wf _) (by decide)).2.2.2

/-- Claim C5: a sink created by `lexy::sink` value-initializes its
accumulator when `.sink()` is called, each invocation applies the supplied
callback (C++ overload resolution combined into one function) to a
reference to the accumulator followed by the arguments, and `finish`,
called once, returns the accumulated value; over `Int`, an adder sink fed
1, 2, 3 and finished yields 6. -/
theorem claim_C5_sink_protocol {T A : Type} [Inhabited T] (f : T → A → T)
    (l : List A) (s : lexy._sink T A) (a : A) :
    (lexy.sink T f).sink = { _value := default, _cb := f }
    ∧ s.run a = { _value := s._cb s._value a, _cb := s._cb }
    ∧ ((lexy.sink T f).sink.feedAll l).finish = l.foldl f default
    ∧ ((lexy.sink Int (fun acc x => acc + x)).sink.feedAll [1, 2, 3]).finish = 6 := by
  refine ⟨rfl, rfl, ?_, by decide⟩
  exact sink_feedAll_finish f l default

theorem claim_C5_witness :
    ((lexy.sink Int (fun acc x => acc + x)).sink.feedAll [1, 2, 3]).finish
      = [1, 2, 3].foldl (fun acc x => acc + x) default :=
  (claim_C5_sink_protocol (fun acc x => acc + x) [1, 2, 3]
    (lexy._sink.mk 0 (fun acc x => acc + x)) 4).2.2.1

/-- Claim C6: when the keyword engine fails, the reported diagnostic is an
`expected_keyword` error carrying the keyword's text, whose range starts at
the position where the keyword match started and ends at the end of the
identifier actually found there, re-scanned with the full identifier
pattern when no character was consumed and with the trailing engine
otherwise; in every case begin ≤ end. -/
theorem claim_C6_keyword_error_range (str : List Char) (L T : Engine)
    (reader : Reader) (pos : Nat) (hL : EngineWf L) (hple : pos ≤ reader.pos) :
    kw_token_error str L T reader pos =
      ParseError.expected_keyword pos
        (if pos = reader.pos then ((engine_try_match (idp_match L T) reader).2).pos
         else (engine_while T reader).pos) str
    ∧ pos ≤ (if pos = reader.pos then ((engine_try_match (idp_match L T) reader).2).pos
         else (engine_while T reader).pos) := by
  refine ⟨rfl, ?_⟩
  by_cases hcase : pos = reader.pos
  · rw [if_pos hcase]
    calc pos = reader.pos := hcase
      _ ≤ ((engine_try_match (idp_match L T) reader).2).pos :=
        engine_try_match_pos_mono (idp_pos_mono hL.pos_mono T) reader
  · rw [if_neg hcase]
    exact Nat.le_trans hple (engine_while_pos_mono T reader)

theorem claim_C6_witness :
    EngineWf alphaEngine ∧ (0 : Nat) ≤ (Reader.mk ("ifx".toList) 2 3).pos ∧
    (kw_token_error ("if".toList) alphaEngine alnumEngine (Reader.mk ("ifx".toList) 2 3) 0 =
        ParseError.expected_keyword 0
          (if (0 : Nat) = (Reader.mk ("ifx".toList) 2 3).pos
           then ((engine_try_match (idp_match alphaEngine alnumEngine)
               (Reader.mk ("ifx".toList) 2 3)).2).pos
           else (engine_while alnumEngine (Reader.mk ("ifx".toList) 2 3)).pos) ("if".toList)
      ∧ (0 : Nat) ≤ (if (0 : Nat) = (Reader.mk ("ifx".toList) 2 3).pos
           then ((engine_try_match (idp_match alphaEngine alnumEngine)
               (Reader.mk ("ifx".toList) 2 3)).2).pos
           else (engine_while alnumEngine (Reader.mk ("ifx".toList) 2 3)).pos)) :=
  ⟨engine_char_class_wf _, by decide,
    claim_C6_keyword_error_range ("if".toList) alphaEngine alnumEngine
      (Reader.mk ("ifx".toList) 2 3) 0 (engine_char_class_wf _) (by decide)⟩

/-- Claim C7: the reserved check runs on a separate partial reader
restricted exactly to the identifier span and never moves the live reader;
the continuation receives the live reader standing exactly at the end of
the span, identical whether or not a reserved match was found, and the only
observable difference a reserved match makes is the reported error. -/
theorem claim_C7_reserved_check_frame (res : Engine)
    (next : List ParseError → Reader → Lexeme → List ParseError × Bool)
    (ctx : List ParseError) (reader old : Reader) :
    id_continuation (some res) next ctx reader old =
      next (if id_reserved_flag res old reader.pos
            then ctx ++ [ParseError.reserved_identifier old.pos reader.pos]
            else ctx) reader (old.pos, reader.pos)
    ∧ id_continuation none next ctx reader old = next ctx reader (old.pos, reader.pos) :=
  ⟨id_continuation_some res next ctx reader old, id_continuation_none next ctx reader old⟩

/-- Claim C8: `reserve_prefix` behaves as reserving each prefix rule
followed by `any`: an identifier span is flagged reserved exactly when some
prefix rule matches at the beginning of the restricted span, because the
appended `any` engine consumes the entire remainder of the restricted
reader, satisfying the consume-the-entire-span condition. -/
theorem claim_C8_reserve_prefix_behavior (ps : List Engine) (old : Reader) (E : Nat)
    (hwf : ∀ p ∈ ps, EngineWf p) (hle : old.pos ≤ E) :
    id_reserved_flag (reserve_prefix_engine ps) old E = true ↔
      ∃ p ∈ ps, (p (partial_reader old E)).1 = 0 := by
  unfold reserve_prefix_engine
  rw [id_reserved_flag_alt_iff]
  · constructor
    · rintro ⟨m, hm, hs, _⟩
      rw [List.mem_map] at hm
      obtain ⟨p, hp, rfl⟩ := hm
      exact ⟨p, hp, (engine_seq_any_success p _).mp hs⟩
    · rintro ⟨p, hp, hs⟩
      refine ⟨engine_seq p engine_any, List.mem_map.mpr ⟨p, hp, rfl⟩,
        (engine_seq_any_success p _).mpr hs, ?_⟩
      exact engine_seq_any_pos (hwf p hp) _ hle hs
  · intro m hm
    rw [List.mem_map] at hm
    obtain ⟨p, hp, rfl⟩ := hm
    exact (engine_seq_wf (hwf p hp) engine_any_wf).pos_le_stop _ hle

theorem claim_C8_witness :
    EngineWf (engine_literal ("__".toList)) ∧ (mkReader "__foo").pos ≤ 5 ∧
    id_reserved_flag (reserve_prefix_engine [engine_literal ("__".toList)])
      (mkReader "__foo") 5 = true := by
  refine ⟨engine_literal_wf _, by decide, ?_⟩
  refine (claim_C8_reserve_prefix_behavior [engine_literal ("__".toList)] (mkReader "__foo") 5
      ?_ (by decide)).mpr ?_
  · intro p hp
    rw [List.mem_singleton] at hp
    subst hp
    exact engine_literal_wf _
  · exact ⟨engine_literal ("__".toList), List.mem_singleton_self _, by decide⟩

/-- Claim C9: `reserve_containing` reserves every identifier whose span
contains a match of the rule: the `_contains` engine scans forward with the
find engine and, when found, consumes the whole rest of the restricted
input with the `any` engine, so it consumes the entire span exactly when
the rule matches somewhere inside it; when the rule matches nowhere, the
engine fails with the `not_found` code (1) and the identifier is not
reserved. -/
theorem claim_C9_reserve_containing_behavior (cond : Engine) (r old : Reader) (E : Nat)
    (hle : r.pos ≤ r.stop) (hoe : old.pos ≤ E) :
    (((contains_match cond r).1 = 0) ↔
       ∃ q, r.pos ≤ q ∧ q ≤ r.stop ∧ (cond { r with pos := q }).1 = 0)
    ∧ ((contains_match cond r).1 = 0 → contains_match cond r = (0, { r with pos := r.stop }))
    ∧ ((contains_match cond r).1 ≠ 0 → contains_match cond r = (1, r))
    ∧ (id_reserved_flag (contains_match cond) old E = true ↔
        ∃ q, old.pos ≤ q ∧ q ≤ E ∧
          (cond { input := old.input, pos := q, stop := E }).1 = 0) := by
  obtain ⟨h1, h2, h3⟩ := contains_match_spec cond r hle
  refine ⟨h1, h2, h3, ?_⟩
  obtain ⟨g1, g2, _⟩ := contains_match_spec cond (partial_reader old E) hoe
  rw [id_reserved_flag_iff]
  constructor
  · rintro ⟨hs, _⟩
    exact g1.mp hs
  · intro hex
    have hs : (contains_match cond (partial_reader old E)).1 = 0 := g1.mpr hex
    refine ⟨hs, ?_⟩
    rw [g2 hs]
    rfl

theorem claim_C9_witness :
    (mkReader "xbady").pos ≤ (mkReader "xbady").stop ∧
    (mkReader "xbady").pos ≤ 5 ∧
    id_reserved_flag (contains_match (engine_literal ("bad".toList))) (mkReader "xbady") 5
      = true := by
  refine ⟨by decide, by decide, ?_⟩
  exact (claim_C9_reserve_containing_behavior (engine_literal ("bad".toList))
      (mkReader "xbady") (mkReader "xbady") 5 (by decide) (by decide)).2.2.2.mpr
    ⟨1, by decide, by decide, by decide⟩

/-- Claim C10: the identifier pattern engine fails exactly when the leading
engine fails, and its error code is exactly the leading engine's code; a
failure of the trailing engine inside the repetition loop is swallowed by
the while engine, so after a successful leading match the identifier always
succeeds; and the pattern's `token_error` delegates to the leading
engine's. -/
theorem claim_C10_identifier_error_passthrough {C : Type} (L T : Engine) (r : Reader)
    (lte : C → Reader → Nat → Nat → C) (ctx : C) (reader : Reader) (ec pos : Nat) :
    (idp_match L T r).1 = (L r).1
    ∧ ((idp_match L T r).1 = 0 ↔ (L r).1 = 0)
    ∧ idp_match L T r = (if (L r).1 = 0 then (0, engine_while T ((L r).2)) else L r)
    ∧ idp_token_error lte ctx reader ec pos = lte ctx reader ec pos := by
  have h3 := idp_match_eq L T r
  have h1 : (idp_match L T r).1 = (L r).1 := by
    rw [h3]
    by_cases h : (L r).1 = 0
    · rw [if_pos h, h]
    · rw [if_neg h]
  exact ⟨h1, by rw [h1], h3, rfl⟩

end Lexy
